import Mathlib

/-!
Verification of the batch-auction state machine of `near-intents`
(`src/auction.rs`, `src/types.rs`).

The Rust `BTreeMap` is embedded as a key-sorted association list:
`insertKey` keeps keys sorted and unique, `lookupKey` finds the value for
a key, `eraseKey` removes a key.  Machine integers are embedded as
`Nat` (u64/u128) and `Int` (i128); no claim in scope depends on
wrap-around behaviour (the operations only compare, copy and sum values,
and `i128::unsigned_abs` is `Int.natAbs`).
-/

/-- `AssetId` from types.rs: an opaque string key. -/
abbrev AssetId := String

/-- `TokenDiff` from types.rs: `BTreeMap<AssetId, i128>`, embedded as a
key-sorted association list. -/
abbrev TokenDiff := List (AssetId × Int)

section MapOps

variable {α : Type} {β : Type} [LinearOrder α]

/-- `BTreeMap::get`: the value stored under key `k`, if any. -/
def lookupKey (k : α) : List (α × β) → Option β
  | [] => none
  | p :: rest => if k = p.1 then some p.2 else lookupKey k rest

/-- `BTreeMap::insert`: store `v` under `k`, keeping keys sorted and
unique (last write wins). -/
def insertKey (k : α) (v : β) : List (α × β) → List (α × β)
  | [] => [(k, v)]
  | p :: rest =>
    if k < p.1 then (k, v) :: p :: rest
    else if k = p.1 then (k, v) :: rest
    else p :: insertKey k v rest

/-- `BTreeMap::remove`: drop the entry stored under `k` (on the unique-key
maps the state machine builds, removing the one entry and filtering
coincide). -/
def eraseKey (k : α) (m : List (α × β)) : List (α × β) :=
  m.filter (fun p => decide (p.1 ≠ k))

/-- `BTreeMap::contains_key`. -/
def containsKey (k : α) (m : List (α × β)) : Bool :=
  (lookupKey k m).isSome

end MapOps

/-- `IntentStatus` from types.rs. -/
inductive IntentStatus where
  | Pending
  | TxBroadcasted
  | Settled
  | NotFoundOrNotValid
deriving DecidableEq

/-- `Intent` from types.rs. -/
structure Intent where
  id : Nat
  signer_id : String
  token_diff : TokenDiff
  deadline_ms : Nat
  min_quote_deadline_ms : Nat
deriving DecidableEq

/-- `Quote` from types.rs. -/
structure Quote where
  intent_id : Nat
  quote_hash : String
  solver_id : String
  amount_out : Nat
  solver_token_diff : TokenDiff
  expiration_ms : Nat
deriving DecidableEq

/-- `Settlement` from types.rs. -/
structure Settlement where
  round : Nat
  settled_intents : List Nat
  winning_quotes : List String
  aggregate_flow : TokenDiff
deriving DecidableEq

/-- `AuctionCommand` from auction.rs. -/
inductive AuctionCommand where
  | SubmitIntent (intent : Intent)
  | SubmitQuote (quote : Quote)
  | ClearRound
deriving DecidableEq

/-- `AuctionQuery` from auction.rs. -/
inductive AuctionQuery where
  | PendingIntents
  | RoundResult (round : Nat)
  | CurrentRound
  | IntentStatus (id : Nat)
  | QuotesForIntent (id : Nat)
deriving DecidableEq

/-- `AuctionQueryResult` from auction.rs. -/
inductive AuctionQueryResult where
  | Intents (v : List Intent)
  | Round (v : Option Settlement)
  | RoundNumber (v : Nat)
  | Status (v : IntentStatus)
  | Quotes (v : List Quote)
deriving DecidableEq

/-- `AuctionStateMachine` from auction.rs. -/
structure AuctionStateMachine where
  pending_intents : List (Nat × Intent)
  intent_status : List (Nat × IntentStatus)
  current_round : Nat
  quotes : List (Nat × List Quote)
  round_results : List Settlement
deriving DecidableEq

/-- `AuctionStateMachine::new`. -/
def AuctionStateMachine.new : AuctionStateMachine :=
  { pending_intents := []
    intent_status := []
    current_round := 0
    quotes := []
    round_results := [] }

/-- `StateMachine::reset` for `AuctionStateMachine`: clear every field. -/
def AuctionStateMachine.reset (_ : AuctionStateMachine) : AuctionStateMachine :=
  AuctionStateMachine.new

/-- `token_diffs_compatible` from auction.rs, with the loop's early
`return false`s rendered as a per-entry check under `List.all`. -/
def token_diffs_compatible (user_diff solver_diff : TokenDiff) : Bool :=
  user_diff.all fun p =>
    match lookupKey p.1 solver_diff with
    | some s =>
      if 0 < p.2 ∧ 0 ≤ s then false
      else if p.2 < 0 ∧ s ≤ 0 then false
      else if 0 < p.2 ∧ s.natAbs < p.2.natAbs then false
      else true
    | none => if 0 < p.2 then false else true

/-- One `*flow.entry(asset).or_insert(0) += amount` step from
`aggregate_token_flow`. -/
def addAmount (m : TokenDiff) (asset : AssetId) (amount : Int) : TokenDiff :=
  insertKey asset ((lookupKey asset m).getD 0 + amount) m

/-- `aggregate_token_flow` from auction.rs: clone the user diff and fold
the solver entries into it, in key order. -/
def aggregate_token_flow (user_diff solver_diff : TokenDiff) : TokenDiff :=
  solver_diff.foldl (fun flow p => addAmount flow p.1 p.2) user_diff

/-- Accumulate a whole flow into the running aggregate flow
(`for (asset, amount) in flow { *aggregate_flow.entry(asset).or_insert(0) += amount }`). -/
def addFlow (acc flow : TokenDiff) : TokenDiff :=
  flow.foldl (fun m p => addAmount m p.1 p.2) acc

/-- One `cmp::max_by` step of Rust's `Iterator::max_by_key` on
`amount_out`: on a tie the newer element is kept, so the iterator
returns the last maximal element. -/
def maxStep (acc : Option Quote) (q : Quote) : Option Quote :=
  match acc with
  | none => some q
  | some b => if b.amount_out ≤ q.amount_out then some q else some b

/-- The best-quote selection inside `ClearRound`:
`quotes.iter().filter(compatible).max_by_key(|q| q.amount_out)`. -/
def bestQuote (intent : Intent) (qs : List Quote) : Option Quote :=
  (qs.filter fun q =>
    token_diffs_compatible intent.token_diff q.solver_token_diff).foldl
    maxStep none

/-- The main loop of `ClearRound`: walk the pending intents in ascending
id order and pair each intent that has a buffered quote list and a
compatible best quote with that winning quote.  The source pushes to the
`settled_intents`, `winning_quotes` and `aggregate_flow` accumulators in
the same iteration; those three are recovered below as projections of
this list, in the same order. -/
def roundWinners (quotes : List (Nat × List Quote)) :
    List (Nat × Intent) → List ((Nat × Intent) × Quote)
  | [] => []
  | p :: rest =>
    match lookupKey p.1 quotes with
    | none => roundWinners quotes rest
    | some qs =>
      match bestQuote p.2 qs with
      | none => roundWinners quotes rest
      | some b => (p, b) :: roundWinners quotes rest

/-- `StateMachine::apply` for `AuctionStateMachine`. -/
def AuctionStateMachine.apply (s : AuctionStateMachine) :
    AuctionCommand → AuctionStateMachine
  | AuctionCommand.SubmitIntent intent =>
    { s with
      intent_status := insertKey intent.id IntentStatus.Pending s.intent_status
      pending_intents := insertKey intent.id intent s.pending_intents }
  | AuctionCommand.SubmitQuote quote =>
    if containsKey quote.intent_id s.pending_intents then
      { s with
        quotes := insertKey quote.intent_id
          ((lookupKey quote.intent_id s.quotes).getD [] ++ [quote]) s.quotes }
    else s
  | AuctionCommand.ClearRound =>
    let winners := roundWinners s.quotes s.pending_intents
    let settled_intents := winners.map fun w => w.1.1
    let winning_quotes := winners.map fun w => w.2.quote_hash
    let aggregate_flow := winners.foldl
      (fun acc w => addFlow acc
        (aggregate_token_flow w.1.2.token_diff w.2.solver_token_diff)) []
    { pending_intents :=
        settled_intents.foldl (fun m id => eraseKey id m) s.pending_intents
      intent_status :=
        settled_intents.foldl
          (fun m id => insertKey id IntentStatus.Settled m) s.intent_status
      current_round := s.current_round + 1
      quotes := []
      round_results :=
        if settled_intents.isEmpty then s.round_results
        else s.round_results ++
          [{ round := s.current_round
             settled_intents := settled_intents
             winning_quotes := winning_quotes
             aggregate_flow := aggregate_flow }] }

/-- `StateMachine::query` for `AuctionStateMachine`. -/
def AuctionStateMachine.query (s : AuctionStateMachine) :
    AuctionQuery → AuctionQueryResult
  | AuctionQuery.PendingIntents =>
    AuctionQueryResult.Intents (s.pending_intents.map fun p => p.2)
  | AuctionQuery.RoundResult round =>
    AuctionQueryResult.Round
      (s.round_results.find? fun st => decide (st.round = round))
  | AuctionQuery.CurrentRound =>
    AuctionQueryResult.RoundNumber s.current_round
  | AuctionQuery.IntentStatus id =>
    AuctionQueryResult.Status
      ((lookupKey id s.intent_status).getD IntentStatus.NotFoundOrNotValid)
  | AuctionQuery.QuotesForIntent id =>
    AuctionQueryResult.Quotes ((lookupKey id s.quotes).getD [])

/-- Apply a whole command sequence, in order, starting from `s`. -/
def applyAll (s : AuctionStateMachine) (cmds : List AuctionCommand) :
    AuctionStateMachine :=
  cmds.foldl AuctionStateMachine.apply s

/-- States reachable from the initial state by `apply` and `reset`. -/
inductive Reachable : AuctionStateMachine → Prop where
  | init : Reachable AuctionStateMachine.new
  | step (s : AuctionStateMachine) (c : AuctionCommand) :
      Reachable s → Reachable (s.apply c)
  | restore (s : AuctionStateMachine) : Reachable s → Reachable s.reset

/-- The compatibility rule as the spec words it, for comparison with
`token_diffs_compatible`: every asset the user wants must be named by the
solver negatively with at least the requested magnitude, and every asset
the user sends must be named by the solver with a positive amount. -/
def specCompatibilityRule (user_diff solver_diff : TokenDiff) : Bool :=
  user_diff.all fun p =>
    if 0 < p.2 then
      match lookupKey p.1 solver_diff with
      | some s => decide (s < 0 ∧ p.2.natAbs ≤ s.natAbs)
      | none => false
    else if p.2 < 0 then
      match lookupKey p.1 solver_diff with
      | some s => decide (0 < s)
      | none => false
    else true

/-- The compatibility rule amended to what the code checks: an asset the
user sends that the solver never mentions imposes no constraint. -/
def specCompatibilityRuleAmended (user_diff solver_diff : TokenDiff) : Bool :=
  user_diff.all fun p =>
    match lookupKey p.1 solver_diff with
    | some s =>
      if 0 < p.2 then decide (s < 0 ∧ p.2.natAbs ≤ s.natAbs)
      else if p.2 < 0 then decide (0 < s)
      else true
    | none => decide (p.2 ≤ 0)

/-- Sample intent with an empty diff (trivially compatible with any
quote), used to exercise the tie-break. -/
def intentE : Intent :=
  { id := 1
    signer_id := "alice"
    token_diff := []
    deadline_ms := 0
    min_quote_deadline_ms := 0 }

/-- First-submitted sample quote for `intentE`. -/
def qA : Quote :=
  { intent_id := 1
    quote_hash := "qA"
    solver_id := "solver0"
    amount_out := 100
    solver_token_diff := []
    expiration_ms := 0 }

/-- Second-submitted sample quote for `intentE`, tied on `amount_out`. -/
def qB : Quote :=
  { intent_id := 1
    quote_hash := "qB"
    solver_id := "solver1"
    amount_out := 100
    solver_token_diff := []
    expiration_ms := 0 }

/-- Sample quote referencing an id that is never pending. -/
def qC : Quote :=
  { intent_id := 99
    quote_hash := "qC"
    solver_id := "solver0"
    amount_out := 7
    solver_token_diff := []
    expiration_ms := 0 }

/-- Second sample intent, distinct id from `intentE`. -/
def intent2 : Intent :=
  { id := 2
    signer_id := "bob"
    token_diff := [("nep141:usdc.near", -1000), ("nep141:wrap.near", 950)]
    deadline_ms := 0
    min_quote_deadline_ms := 0 }

/-- Concrete state: intent 1 pending with the tied quotes `qA`, `qB`
buffered in submission order. -/
def sPre : AuctionStateMachine :=
  applyAll AuctionStateMachine.new
    [AuctionCommand.SubmitIntent intentE,
     AuctionCommand.SubmitQuote qA,
     AuctionCommand.SubmitQuote qB]

/-- Concrete state: `sPre` after one `ClearRound`. -/
def sTie : AuctionStateMachine :=
  sPre.apply AuctionCommand.ClearRound

section MapLemmas

variable {α : Type} {β : Type} [LinearOrder α]

/-- Looking up after an insert: the inserted key maps to the new value,
every other key is unchanged. -/
theorem lookupKey_insertKey (k id : α) (v : β) (m : List (α × β)) :
    lookupKey id (insertKey k v m) =
      if id = k then some v else lookupKey id m := by
  induction m with
  | nil => simp [insertKey, lookupKey]
  | cons p rest ih =>
    by_cases hlt : k < p.1
    · simp [insertKey, if_pos hlt, lookupKey]
    · by_cases heq : k = p.1
      · subst heq
        simp only [insertKey, if_neg hlt, if_pos rfl, lookupKey]
        by_cases hip : id = p.1
        · simp [hip]
        · simp [hip]
      · simp only [insertKey, if_neg hlt, if_neg heq, lookupKey, ih]
        by_cases hip : id = p.1
        · subst hip
          have hik : ¬ p.1 = k := fun h => heq h.symm
          simp [hik]
        · simp [hip]

/-- Looking up after an erase: the erased key is gone, every other key is
unchanged. -/
theorem lookupKey_eraseKey (k id : α) (m : List (α × β)) :
    lookupKey id (eraseKey k m) =
      if id = k then none else lookupKey id m := by
  induction m with
  | nil => simp [eraseKey, lookupKey]
  | cons p rest ih =>
    by_cases hpk : p.1 = k
    · have h1 : eraseKey k (p :: rest) = eraseKey k rest := by
        simp [eraseKey, List.filter_cons, hpk]
      rw [h1, ih]
      by_cases hid : id = k
      · simp [hid]
      · have hip : ¬ id = p.1 := fun h => hid (hpk ▸ h)
        simp [hid, lookupKey, hip]
    · have h1 : eraseKey k (p :: rest) = p :: eraseKey k rest := by
        simp [eraseKey, List.filter_cons, hpk]
      rw [h1]
      simp only [lookupKey, ih]
      by_cases hid : id = p.1
      · have hik : ¬ id = k := fun h => hpk (hid ▸ h)
        simp [hid, hik, hpk]
      · simp [hid]

/-- Erasing a list of keys: a key in the list is gone, the rest are
unchanged. -/
theorem lookupKey_foldl_eraseKey (l : List α) (m : List (α × β)) (id : α) :
    lookupKey id (l.foldl (fun acc k => eraseKey k acc) m) =
      if id ∈ l then none else lookupKey id m := by
  induction l generalizing m with
  | nil => simp
  | cons a l ih =>
    simp only [List.foldl_cons, ih, lookupKey_eraseKey, List.mem_cons]
    by_cases hl : id ∈ l
    · simp [hl]
    · by_cases ha : id = a
      · simp [ha, hl]
      · simp [ha, hl]

/-- Inserting one value under a list of keys: a key in the list maps to
that value, the rest are unchanged. -/
theorem lookupKey_foldl_insertKey (l : List α) (c : β) (m : List (α × β))
    (id : α) :
    lookupKey id (l.foldl (fun acc k => insertKey k c acc) m) =
      if id ∈ l then some c else lookupKey id m := by
  induction l generalizing m with
  | nil => simp
  | cons a l ih =>
    simp only [List.foldl_cons, ih, lookupKey_insertKey, List.mem_cons]
    by_cases hl : id ∈ l
    · simp [hl]
    · by_cases ha : id = a
      · simp [ha, hl]
      · simp [ha, hl]

end MapLemmas

/-- Folding `maxStep` from a non-empty accumulator: the result is either
the accumulator itself, with every later element strictly smaller, or an
element of the list that is at least as large as the accumulator and all
elements before it, and strictly larger than all elements after it. -/
theorem foldl_maxStep_some (l : List Quote) (b q : Quote)
    (h : l.foldl maxStep (some b) = some q) :
    (q = b ∧ ∀ x ∈ l, x.amount_out < b.amount_out) ∨
    (∃ l1 l2, l = l1 ++ q :: l2 ∧ b.amount_out ≤ q.amount_out ∧
      (∀ x ∈ l1, x.amount_out ≤ q.amount_out) ∧
      (∀ x ∈ l2, x.amount_out < q.amount_out)) := by
  induction l generalizing b with
  | nil =>
    left
    simp only [List.foldl_nil, Option.some.injEq] at h
    exact ⟨h.symm, by simp⟩
  | cons a rest ih =>
    simp only [List.foldl_cons] at h
    by_cases hba : b.amount_out ≤ a.amount_out
    · rw [show maxStep (some b) a = some a from by simp [maxStep, hba]] at h
      rcases ih a h with ⟨hqa, hrest⟩ | ⟨l1, l2, hsplit, hle, hl1, hl2⟩
      · right
        refine ⟨[], rest, by simp [hqa], ?_, by simp, fun x hx => ?_⟩
        · subst hqa; exact hba
        · subst hqa; exact hrest x hx
      · right
        refine ⟨a :: l1, l2, by simp [hsplit], le_trans hba hle, ?_, hl2⟩
        intro x hx
        rcases List.mem_cons.mp hx with hxa | hxl1
        · subst hxa; exact hle
        · exact hl1 x hxl1
    · rw [show maxStep (some b) a = some b from by simp [maxStep, hba]] at h
      rcases ih b h with ⟨hqb, hrest⟩ | ⟨l1, l2, hsplit, hle, hl1, hl2⟩
      · left
        refine ⟨hqb, fun x hx => ?_⟩
        rcases List.mem_cons.mp hx with hxa | hxr
        · subst hxa; exact Nat.lt_of_not_le hba
        · exact hrest x hxr
      · right
        refine ⟨a :: l1, l2, by simp [hsplit], hle, ?_, hl2⟩
        intro x hx
        rcases List.mem_cons.mp hx with hxa | hxl1
        · subst hxa; exact le_trans (le_of_lt (Nat.lt_of_not_le hba)) hle
        · exact hl1 x hxl1

/-- `bestQuote` returns the last maximal element of the compatible
sublist: at least as large as every compatible quote buffered before it,
strictly larger than every compatible quote buffered after it. -/
theorem bestQuote_last_max (intent : Intent) (qs : List Quote) (q : Quote)
    (h : bestQuote intent qs = some q) :
    ∃ l1 l2,
      qs.filter (fun x =>
        token_diffs_compatible intent.token_diff x.solver_token_diff) =
          l1 ++ q :: l2 ∧
      (∀ x ∈ l1, x.amount_out ≤ q.amount_out) ∧
      (∀ x ∈ l2, x.amount_out < q.amount_out) := by
  unfold bestQuote at h
  rcases hf : qs.filter (fun x =>
      token_diffs_compatible intent.token_diff x.solver_token_diff) with
    _ | ⟨c, cs⟩
  · rw [hf] at h
    simp at h
  · rw [hf] at h
    simp only [List.foldl_cons, maxStep] at h
    rcases foldl_maxStep_some cs c q h with ⟨hqc, hrest⟩ | ⟨l1, l2, hsplit, hle, hl1, hl2⟩
    · refine ⟨[], cs, by simp [hf, hqc], by simp, fun x hx => ?_⟩
      subst hqc; exact hrest x hx
    · refine ⟨c :: l1, l2, by simp [hf, hsplit], fun x hx => ?_, hl2⟩
      rcases List.mem_cons.mp hx with hxc | hxl1
      · subst hxc; exact hle
      · exact hl1 x hxl1

/-- Every entry of `roundWinners` comes from a pending intent whose
buffered quote list exists and whose best quote is the recorded winner. -/
theorem roundWinners_mem (quotes : List (Nat × List Quote))
    (pend : List (Nat × Intent)) (w : (Nat × Intent) × Quote)
    (hw : w ∈ roundWinners quotes pend) :
    w.1 ∈ pend ∧ ∃ qs, lookupKey w.1.1 quotes = some qs ∧
      bestQuote w.1.2 qs = some w.2 := by
  induction pend with
  | nil => simp [roundWinners] at hw
  | cons p rest ih =>
    rw [roundWinners] at hw
    rcases hq : lookupKey p.1 quotes with _ | qs
    · simp only [hq] at hw
      rcases ih hw with ⟨hmem, hrest⟩
      exact ⟨List.mem_cons_of_mem p hmem, hrest⟩
    · simp only [hq] at hw
      rcases hb : bestQuote p.2 qs with _ | b
      · simp only [hb] at hw
        rcases ih hw with ⟨hmem, hrest⟩
        exact ⟨List.mem_cons_of_mem p hmem, hrest⟩
      · simp only [hb] at hw
        rcases List.mem_cons.mp hw with hwp | hwrest
        · subst hwp
          exact ⟨List.mem_cons_self p rest, qs, hq, hb⟩
        · rcases ih hwrest with ⟨hmem, hrest⟩
          exact ⟨List.mem_cons_of_mem p hmem, hrest⟩

/-- The per-entry check of `token_diffs_compatible` agrees with the
amended compatibility rule's per-entry check. -/
theorem compat_entry_eq (p : AssetId × Int) (solver_diff : TokenDiff) :
    (match lookupKey p.1 solver_diff with
     | some s =>
       if 0 < p.2 ∧ 0 ≤ s then false
       else if p.2 < 0 ∧ s ≤ 0 then false
       else if 0 < p.2 ∧ s.natAbs < p.2.natAbs then false
       else true
     | none => if 0 < p.2 then false else true) =
    (match lookupKey p.1 solver_diff with
     | some s =>
       if 0 < p.2 then decide (s < 0 ∧ p.2.natAbs ≤ s.natAbs)
       else if p.2 < 0 then decide (0 < s)
       else true
     | none => decide (p.2 ≤ 0)) := by
  rcases hl : lookupKey p.1 solver_diff with _ | sv <;> simp only [hl]
  · rw [Bool.eq_iff_iff]
    by_cases hp : 0 < p.2 <;> simp [hp] <;> omega
  · rw [Bool.eq_iff_iff]
    split_ifs <;> simp_all <;> omega

/-- Any state produced by a command sequence from a reachable state is
reachable. -/
theorem reachable_applyAll (s : AuctionStateMachine)
    (cmds : List AuctionCommand) (h : Reachable s) :
    Reachable (applyAll s cmds) := by
  induction cmds generalizing s with
  | nil => exact h
  | cons c cs ih => exact ih (s.apply c) (Reachable.step s c h)

/-- Claim C1: applying any fixed command sequence to two freshly
constructed `AuctionStateMachine` instances yields identical observable
state: same `pending_intents`, `intent_status`, `current_round`,
`quotes` and `round_results`.  Determinism is definitional here because
`apply` is embedded as a pure function of (state, command). -/
theorem applyAll_deterministic (s1 s2 : AuctionStateMachine)
    (cmds : List AuctionCommand)
    (h1 : s1 = AuctionStateMachine.new) (h2 : s2 = AuctionStateMachine.new) :
    (applyAll s1 cmds).pending_intents = (applyAll s2 cmds).pending_intents ∧
    (applyAll s1 cmds).intent_status = (applyAll s2 cmds).intent_status ∧
    (applyAll s1 cmds).current_round = (applyAll s2 cmds).current_round ∧
    (applyAll s1 cmds).quotes = (applyAll s2 cmds).quotes ∧
    (applyAll s1 cmds).round_results = (applyAll s2 cmds).round_results := by
  subst h1; subst h2
  exact ⟨rfl, rfl, rfl, rfl, rfl⟩

/-- Witness for C1 at a concrete command sequence. -/
theorem applyAll_deterministic_witness :
    (applyAll AuctionStateMachine.new
        [AuctionCommand.SubmitIntent intentE]).pending_intents =
      (applyAll AuctionStateMachine.new
        [AuctionCommand.SubmitIntent intentE]).pending_intents ∧
    (applyAll AuctionStateMachine.new
        [AuctionCommand.SubmitIntent intentE]).intent_status =
      (applyAll AuctionStateMachine.new
        [AuctionCommand.SubmitIntent intentE]).intent_status ∧
    (applyAll AuctionStateMachine.new
        [AuctionCommand.SubmitIntent intentE]).current_round =
      (applyAll AuctionStateMachine.new
        [AuctionCommand.SubmitIntent intentE]).current_round ∧
    (applyAll AuctionStateMachine.new
        [AuctionCommand.SubmitIntent intentE]).quotes =
      (applyAll AuctionStateMachine.new
        [AuctionCommand.SubmitIntent intentE]).quotes ∧
    (applyAll AuctionStateMachine.new
        [AuctionCommand.SubmitIntent intentE]).round_results =
      (applyAll AuctionStateMachine.new
        [AuctionCommand.SubmitIntent intentE]).round_results :=
  applyAll_deterministic AuctionStateMachine.new AuctionStateMachine.new
    [AuctionCommand.SubmitIntent intentE] rfl rfl

/-- Claim C2 counterexample: `token_diffs_compatible` accepts a solver
diff that never mentions an asset the user sends (negative amount), while
the claimed rule requires the solver to name that asset; so the function
does not return true exactly when the claimed rule holds. -/
theorem token_diffs_compatible_rule_cex :
    token_diffs_compatible [("nep141:usdc.near", -5)] [] = true ∧
    specCompatibilityRule [("nep141:usdc.near", -5)] [] = false := by
  decide

/-- Claim C2 (amended): `token_diffs_compatible` returns true exactly when
the amended rule holds: every asset the user wants to receive must be
named by the solver with a negative amount of magnitude at least the
requested one; an asset the user sends constrains the solver only if the
solver names it, in which case the named amount must be positive; an
empty user diff is compatible with anything. -/
theorem token_diffs_compatible_eq_amended (user_diff solver_diff : TokenDiff) :
    token_diffs_compatible user_diff solver_diff =
      specCompatibilityRuleAmended user_diff solver_diff := by
  unfold token_diffs_compatible specCompatibilityRuleAmended
  induction user_diff with
  | nil => rfl
  | cons p rest ih =>
    simp only [List.all_cons, ih]
    congr 1
    exact compat_entry_eq p solver_diff

/-- Claim C3 counterexample: two compatible quotes for intent 1 with
equal `amount_out`, buffered in submission order `[qA, qB]`; the winner
recorded in `winning_quotes` by `ClearRound` is the later-submitted
`"qB"`, not the earliest-submitted `"qA"` as the claim states
(Rust's `max_by_key` keeps the last maximal element). -/
theorem clearRound_tie_earliest_cex :
    lookupKey 1 sPre.quotes = some [qA, qB] ∧
    qA.amount_out = qB.amount_out ∧
    token_diffs_compatible intentE.token_diff qA.solver_token_diff = true ∧
    token_diffs_compatible intentE.token_diff qB.solver_token_diff = true ∧
    sTie.round_results.map Settlement.winning_quotes = [["qB"]] ∧
    qB.quote_hash ≠ qA.quote_hash := by
  decide

/-- Claim C3 (amended): during `ClearRound` the winner recorded for each
settled intent is the latest-submitted one among the compatible quotes of
maximal `amount_out`: the winning quote is compatible, at least as large
as every compatible quote buffered before it, and strictly larger than
every compatible quote buffered after it. -/
theorem clearRound_winner_is_latest_max (s : AuctionStateMachine)
    (w : (Nat × Intent) × Quote)
    (hw : w ∈ roundWinners s.quotes s.pending_intents) :
    ∃ qs l1 l2, lookupKey w.1.1 s.quotes = some qs ∧
      qs.filter (fun x =>
        token_diffs_compatible w.1.2.token_diff x.solver_token_diff) =
          l1 ++ w.2 :: l2 ∧
      (∀ x ∈ l1, x.amount_out ≤ w.2.amount_out) ∧
      (∀ x ∈ l2, x.amount_out < w.2.amount_out) := by
  rcases roundWinners_mem s.quotes s.pending_intents w hw with ⟨_, qs, hq, hb⟩
  rcases bestQuote_last_max w.1.2 qs w.2 hb with ⟨l1, l2, hsplit, hl1, hl2⟩
  exact ⟨qs, l1, l2, hq, hsplit, hl1, hl2⟩

/-- Witness for C3 (amended) at the concrete tied state. -/
theorem clearRound_winner_is_latest_max_witness :
    ∃ qs l1 l2, lookupKey 1 sPre.quotes = some qs ∧
      qs.filter (fun x =>
        token_diffs_compatible intentE.token_diff x.solver_token_diff) =
          l1 ++ qB :: l2 ∧
      (∀ x ∈ l1, x.amount_out ≤ qB.amount_out) ∧
      (∀ x ∈ l2, x.amount_out < qB.amount_out) :=
  clearRound_winner_is_latest_max sPre ((1, intentE), qB) (by decide)

/-- Claim C4: for every state, `ClearRound` leaves the quotes buffer
empty (so `QuotesForIntent` returns an empty list for every id) and
increments `current_round` by exactly one, no matter how many intents
settled. -/
theorem clearRound_clears_buffer (s : AuctionStateMachine) :
    (s.apply AuctionCommand.ClearRound).quotes = [] ∧
    (s.apply AuctionCommand.ClearRound).current_round = s.current_round + 1 ∧
    ∀ id, (s.apply AuctionCommand.ClearRound).query
      (AuctionQuery.QuotesForIntent id) = AuctionQueryResult.Quotes [] :=
  ⟨rfl, rfl, fun _ => rfl⟩

/-- Claim C5: `ClearRound` appends exactly one `Settlement` record iff at
least one intent settled (the winners list is non-empty); the record
carries the pre-increment round counter and its index-aligned
`settled_intents` and `winning_quotes` lists, which have equal length;
a round that settles nothing appends no record but still increments the
round counter. -/
theorem clearRound_settlement_record (s : AuctionStateMachine) :
    (roundWinners s.quotes s.pending_intents ≠ [] →
      (s.apply AuctionCommand.ClearRound).round_results =
        s.round_results ++
          [{ round := s.current_round
             settled_intents :=
               (roundWinners s.quotes s.pending_intents).map fun w => w.1.1
             winning_quotes :=
               (roundWinners s.quotes s.pending_intents).map fun w =>
                 w.2.quote_hash
             aggregate_flow :=
               (roundWinners s.quotes s.pending_intents).foldl
                 (fun acc w => addFlow acc
                   (aggregate_token_flow w.1.2.token_diff
                     w.2.solver_token_diff)) [] }]) ∧
    (roundWinners s.quotes s.pending_intents = [] →
      (s.apply AuctionCommand.ClearRound).round_results = s.round_results) ∧
    ((roundWinners s.quotes s.pending_intents).map fun w => w.1.1).length =
      ((roundWinners s.quotes s.pending_intents).map fun w =>
        w.2.quote_hash).length ∧
    (s.apply AuctionCommand.ClearRound).current_round =
      s.current_round + 1 := by
  refine ⟨?_, ?_, by simp, rfl⟩
  · intro h
    simp only [AuctionStateMachine.apply]
    rw [if_neg]
    simp [h]
  · intro h
    simp [AuctionStateMachine.apply, h]

/-- Witness for C5 at the concrete state with one settling intent. -/
theorem clearRound_settlement_record_witness :
    (sPre.apply AuctionCommand.ClearRound).round_results =
      sPre.round_results ++
        [{ round := sPre.current_round
           settled_intents :=
             (roundWinners sPre.quotes sPre.pending_intents).map fun w => w.1.1
           winning_quotes :=
             (roundWinners sPre.quotes sPre.pending_intents).map fun w =>
               w.2.quote_hash
           aggregate_flow :=
             (roundWinners sPre.quotes sPre.pending_intents).foldl
               (fun acc w => addFlow acc
                 (aggregate_token_flow w.1.2.token_diff
                   w.2.solver_token_diff)) [] }] :=
  (clearRound_settlement_record sPre).1 (by decide)

/-- Claim C6: a `SubmitQuote` whose `intent_id` is not pending leaves the
entire state unchanged; when the id is pending, the quote is appended to
that intent's buffered quote list and nothing else changes. -/
theorem submitQuote_pending_gate (s : AuctionStateMachine) (q : Quote) :
    (containsKey q.intent_id s.pending_intents = false →
      s.apply (AuctionCommand.SubmitQuote q) = s) ∧
    (containsKey q.intent_id s.pending_intents = true →
      (s.apply (AuctionCommand.SubmitQuote q)).pending_intents =
        s.pending_intents ∧
      (s.apply (AuctionCommand.SubmitQuote q)).intent_status =
        s.intent_status ∧
      (s.apply (AuctionCommand.SubmitQuote q)).current_round =
        s.current_round ∧
      (s.apply (AuctionCommand.SubmitQuote q)).round_results =
        s.round_results ∧
      lookupKey q.intent_id (s.apply (AuctionCommand.SubmitQuote q)).quotes =
        some ((lookupKey q.intent_id s.quotes).getD [] ++ [q]) ∧
      ∀ id, id ≠ q.intent_id →
        lookupKey id (s.apply (AuctionCommand.SubmitQuote q)).quotes =
          lookupKey id s.quotes) := by
  constructor
  · intro h
    simp [AuctionStateMachine.apply, h]
  · intro h
    simp only [AuctionStateMachine.apply]
    rw [if_pos h]
    refine ⟨rfl, rfl, rfl, rfl, ?_, ?_⟩
    · rw [lookupKey_insertKey, if_pos rfl]
    · intro id hid
      rw [lookupKey_insertKey, if_neg hid]

/-- Witness for C6: a quote for unknown id 99 is a no-op on `sPre`; a
quote for pending id 1 is appended to that intent's buffer. -/
theorem submitQuote_pending_gate_witness :
    sPre.apply (AuctionCommand.SubmitQuote qC) = sPre ∧
    lookupKey 1 (sPre.apply (AuctionCommand.SubmitQuote qA)).quotes =
      some ((lookupKey 1 sPre.quotes).getD [] ++ [qA]) :=
  ⟨(submitQuote_pending_gate sPre qC).1 (by decide),
   ((submitQuote_pending_gate sPre qA).2 (by decide)).2.2.2.2.1⟩

/-- Claim C7: in every reachable state (under any sequence of `apply` and
`reset`), every key of `pending_intents` has an `intent_status` entry
mapped to `Pending`. -/
theorem pending_implies_status_pending (s : AuctionStateMachine)
    (h : Reachable s) :
    ∀ id intent, lookupKey id s.pending_intents = some intent →
      lookupKey id s.intent_status = some IntentStatus.Pending := by
  induction h with
  | init =>
    intro id intent hl
    simp [AuctionStateMachine.new, lookupKey] at hl
  | restore s hr ih =>
    intro id intent hl
    simp [AuctionStateMachine.reset, AuctionStateMachine.new, lookupKey] at hl
  | step s c hr ih =>
    intro id intent hl
    cases c with
    | SubmitIntent i =>
      simp only [AuctionStateMachine.apply] at hl ⊢
      rw [lookupKey_insertKey] at hl ⊢
      by_cases hid : id = i.id
      · rw [if_pos hid]
      · rw [if_neg hid] at hl ⊢
        exact ih id intent hl
    | SubmitQuote q =>
      by_cases hc : containsKey q.intent_id s.pending_intents
      · simp only [AuctionStateMachine.apply, if_pos hc] at hl ⊢
        exact ih id intent hl
      · simp only [AuctionStateMachine.apply, if_neg hc] at hl ⊢
        exact ih id intent hl
    | ClearRound =>
      simp only [AuctionStateMachine.apply] at hl ⊢
      rw [lookupKey_foldl_eraseKey] at hl
      rw [lookupKey_foldl_insertKey]
      by_cases hmem : id ∈ (roundWinners s.quotes s.pending_intents).map
        fun w => w.1.1
      · rw [if_pos hmem] at hl
        exact absurd hl (by simp)
      · rw [if_neg hmem] at hl
        rw [if_neg hmem]
        exact ih id intent hl

/-- Witness for C7 at the concrete state `sPre` with pending intent 1. -/
theorem pending_implies_status_pending_witness :
    lookupKey 1 sPre.pending_intents = some intentE ∧
    lookupKey 1 sPre.intent_status = some IntentStatus.Pending :=
  ⟨by decide,
   pending_implies_status_pending sPre
     (reachable_applyAll AuctionStateMachine.new
       [AuctionCommand.SubmitIntent intentE,
        AuctionCommand.SubmitQuote qA,
        AuctionCommand.SubmitQuote qB] Reachable.init)
     1 intentE (by decide)⟩

/-- Claim C8: every query returns a result (the embedded `query` is a
total pure function, so it cannot fail or modify state); an unknown
intent id yields the `NotFoundOrNotValid` sentinel, a round with no
recorded settlement yields `none`, and an intent id with no buffered
quotes yields an empty list. -/
theorem query_sentinels (s : AuctionStateMachine) (qy : AuctionQuery)
    (id1 id2 round : Nat)
    (hstatus : lookupKey id1 s.intent_status = none)
    (hround : ∀ st ∈ s.round_results, st.round ≠ round)
    (hquotes : lookupKey id2 s.quotes = none) :
    (∃ r, s.query qy = r) ∧
    s.query (AuctionQuery.IntentStatus id1) =
      AuctionQueryResult.Status IntentStatus.NotFoundOrNotValid ∧
    s.query (AuctionQuery.RoundResult round) =
      AuctionQueryResult.Round none ∧
    s.query (AuctionQuery.QuotesForIntent id2) =
      AuctionQueryResult.Quotes [] := by
  refine ⟨⟨s.query qy, rfl⟩, ?_, ?_, ?_⟩
  · simp [AuctionStateMachine.query, hstatus]
  · simp only [AuctionStateMachine.query]
    congr 1
    rw [List.find?_eq_none]
    intro st hst
    simp [hround st hst]
  · simp [AuctionStateMachine.query, hquotes]

/-- Witness for C8 at the concrete post-clear state `sTie`. -/
theorem query_sentinels_witness :
    sTie.query (AuctionQuery.IntentStatus 42) =
      AuctionQueryResult.Status IntentStatus.NotFoundOrNotValid ∧
    sTie.query (AuctionQuery.RoundResult 5) =
      AuctionQueryResult.Round none ∧
    sTie.query (AuctionQuery.QuotesForIntent 7) =
      AuctionQueryResult.Quotes [] :=
  ⟨(query_sentinels sTie AuctionQuery.CurrentRound 42 7 5
      (by decide) (by decide) (by decide)).2.1,
   (query_sentinels sTie AuctionQuery.CurrentRound 42 7 5
      (by decide) (by decide) (by decide)).2.2.1,
   (query_sentinels sTie AuctionQuery.CurrentRound 42 7 5
      (by decide) (by decide) (by decide)).2.2.2⟩

/-- Claim C9: in every reachable state, every value stored in
`intent_status` is `Pending` or `Settled`; the variants `TxBroadcasted`
and `NotFoundOrNotValid` are never stored. -/
theorem stored_status_pending_or_settled (s : AuctionStateMachine)
    (h : Reachable s) :
    ∀ id st, lookupKey id s.intent_status = some st →
      st = IntentStatus.Pending ∨ st = IntentStatus.Settled := by
  induction h with
  | init =>
    intro id st hl
    simp [AuctionStateMachine.new, lookupKey] at hl
  | restore s hr ih =>
    intro id st hl
    simp [AuctionStateMachine.reset, AuctionStateMachine.new, lookupKey] at hl
  | step s c hr ih =>
    intro id st hl
    cases c with
    | SubmitIntent i =>
      simp only [AuctionStateMachine.apply] at hl
      rw [lookupKey_insertKey] at hl
      by_cases hid : id = i.id
      · rw [if_pos hid] at hl
        exact Or.inl (Option.some.inj hl).symm
      · rw [if_neg hid] at hl
        exact ih id st hl
    | SubmitQuote q =>
      by_cases hc : containsKey q.intent_id s.pending_intents
      · simp only [AuctionStateMachine.apply, if_pos hc] at hl
        exact ih id st hl
      · simp only [AuctionStateMachine.apply, if_neg hc] at hl
        exact ih id st hl
    | ClearRound =>
      simp only [AuctionStateMachine.apply] at hl
      rw [lookupKey_foldl_insertKey] at hl
      by_cases hmem : id ∈ (roundWinners s.quotes s.pending_intents).map
        fun w => w.1.1
      · rw [if_pos hmem] at hl
        exact Or.inr (Option.some.inj hl).symm
      · rw [if_neg hmem] at hl
        exact ih id st hl

/-- Witness for C9 at the concrete state `sTie` where intent 1 is
Settled. -/
theorem stored_status_pending_or_settled_witness :
    lookupKey 1 sTie.intent_status = some IntentStatus.Settled ∧
    (IntentStatus.Settled = IntentStatus.Pending ∨
      IntentStatus.Settled = IntentStatus.Settled) :=
  ⟨by decide,
   stored_status_pending_or_settled sTie
     (Reachable.step sPre AuctionCommand.ClearRound
       (reachable_applyAll AuctionStateMachine.new
         [AuctionCommand.SubmitIntent intentE,
          AuctionCommand.SubmitQuote qA,
          AuctionCommand.SubmitQuote qB] Reachable.init))
     1 IntentStatus.Settled (by decide)⟩

/-- Claim C10: `SubmitIntent` modifies only the `pending_intents` and
`intent_status` entries for the submitted intent's id (last write wins):
`quotes` (including any quotes already buffered under that id, which
will compete at the next `ClearRound`), `current_round`, `round_results`
and the entries of every other id are unchanged. -/
theorem submitIntent_frame (s : AuctionStateMachine) (intent : Intent) :
    (s.apply (AuctionCommand.SubmitIntent intent)).quotes = s.quotes ∧
    (s.apply (AuctionCommand.SubmitIntent intent)).current_round =
      s.current_round ∧
    (s.apply (AuctionCommand.SubmitIntent intent)).round_results =
      s.round_results ∧
    lookupKey intent.id
      (s.apply (AuctionCommand.SubmitIntent intent)).pending_intents =
        some intent ∧
    lookupKey intent.id
      (s.apply (AuctionCommand.SubmitIntent intent)).intent_status =
        some IntentStatus.Pending ∧
    lookupKey intent.id
      (s.apply (AuctionCommand.SubmitIntent intent)).quotes =
        lookupKey intent.id s.quotes ∧
    ∀ id, id ≠ intent.id →
      lookupKey id
        (s.apply (AuctionCommand.SubmitIntent intent)).pending_intents =
          lookupKey id s.pending_intents ∧
      lookupKey id
        (s.apply (AuctionCommand.SubmitIntent intent)).intent_status =
          lookupKey id s.intent_status := by
  refine ⟨rfl, rfl, rfl, ?_, ?_, rfl, ?_⟩
  · simp only [AuctionStateMachine.apply]
    rw [lookupKey_insertKey, if_pos rfl]
  · simp only [AuctionStateMachine.apply]
    rw [lookupKey_insertKey, if_pos rfl]
  · intro id hid
    simp only [AuctionStateMachine.apply]
    rw [lookupKey_insertKey, if_neg hid, lookupKey_insertKey, if_neg hid]
    exact ⟨rfl, rfl⟩

/-- Witness for C10 at a concrete state and a distinct id. -/
theorem submitIntent_frame_witness :
    (sPre.apply (AuctionCommand.SubmitIntent intent2)).quotes =
      sPre.quotes ∧
    lookupKey 1
      (sPre.apply (AuctionCommand.SubmitIntent intent2)).pending_intents =
        lookupKey 1 sPre.pending_intents :=
  ⟨(submitIntent_frame sPre intent2).1,
   ((submitIntent_frame sPre intent2).2.2.2.2.2.2 1 (by decide)).1⟩
